import Mathlib

/-!
Verification of `src/dna_helper.py` (the damian DNA helper module).

Sequences are modelled as `List Char`.  The compiled regex produced by
`dna_utility.conv_ambig_regex` always has the shape
`(?b)(frag1 frag2 ... fragN){s<=m}` where every fragment is a character
class; such a pattern is represented by the list of those classes together
with the mismatch budget.  The fuzzy-matching semantics of the `regex`
library on such a pattern (substitutions only, BESTMATCH flag `(?b)`) is:
a candidate match at position `i` is a window of exactly `patLen` target
characters whose number of class mismatches is at most the budget, and
`search` returns the candidate with the fewest mismatches, ties broken by
the leftmost position.

Case normalisation (`str.upper`) is modelled by `Char.toUpper`, the ASCII
case mapping, which agrees with Python on the ASCII alphabet the module
works with.
-/

namespace DnaHelper

/-- A compiled DNA pattern: one character class per sequence symbol plus the
mismatch budget that was interpolated into `{s<=...}`.  The budget is kept
as an `Int` because the source interpolates `str(mismatches)` without any
sign check. -/
structure CompiledPattern where
  classes : List (List Char)
  mismatches : Int
deriving Repr, DecidableEq

/-- The table `AMB_REGEX_DICT` from the source, with each regex fragment
(a literal character or a character class) represented by the list of
characters it accepts.  Transcribed entry by entry from lines 47-55 of
`dna_helper.py`; in particular `'m'` maps to the uppercase class `[AC]`,
`'V'` to `[ACT]` and `'H'` to `[ACG]`, exactly as in the source. -/
def AMB_REGEX_DICT : Char → Option (List Char)
  | 'A' => some ['A']
  | 'a' => some ['a']
  | 'C' => some ['C']
  | 'c' => some ['c']
  | 'G' => some ['G']
  | 'g' => some ['g']
  | 'T' => some ['T']
  | 't' => some ['t']
  | 'U' => some ['U']
  | 'u' => some ['u']
  | 'R' => some ['A', 'G']
  | 'r' => some ['a', 'g']
  | 'Y' => some ['C', 'T']
  | 'y' => some ['c', 't']
  | 'S' => some ['G', 'C']
  | 's' => some ['g', 'c']
  | 'W' => some ['A', 'T']
  | 'w' => some ['a', 't']
  | 'K' => some ['G', 'T']
  | 'k' => some ['g', 't']
  | 'M' => some ['A', 'C']
  | 'm' => some ['A', 'C']
  | 'B' => some ['C', 'G', 'T']
  | 'b' => some ['c', 'g', 't']
  | 'D' => some ['A', 'G', 'T']
  | 'd' => some ['a', 'g', 't']
  | 'V' => some ['A', 'C', 'T']
  | 'v' => some ['a', 'c', 't']
  | 'H' => some ['A', 'C', 'G']
  | 'h' => some ['a', 'c', 'g']
  | 'N' => some ['A', 'C', 'G', 'T']
  | 'n' => some ['a', 'c', 'g', 't']
  | 'I' => some ['A', 'C', 'G', 'T']
  | 'i' => some ['a', 'c', 'g', 't']
  | _ => none

/-- The character-by-character loop of `conv_ambig_regex` (lines 95-99):
look every character up in `AMB_REGEX_DICT`, concatenating the fragments;
the first character without an entry raises `KeyError` naming it, modelled
as `Except.error` carrying that character. -/
def convChars : List Char → Except Char (List (List Char))
  | [] => Except.ok []
  | c :: rest =>
    match AMB_REGEX_DICT c with
    | some cls => (convChars rest).map (fun r => cls :: r)
    | none => Except.error c

/-- `dna_utility.conv_ambig_regex` (lines 65-102): optionally uppercase the
sequence, translate each character through the table, and wrap the result
with the `(?b)(...){s<=mismatches}` budget.  No validation of `mismatches`
is performed by the source; the value is recorded as given. -/
def conv_ambig_regex (sequence : List Char) (mismatches : Int)
    (preserve_case : Bool) : Except Char CompiledPattern :=
  (convChars (if preserve_case then sequence else sequence.map Char.toUpper)).map
    (fun cls => { classes := cls, mismatches := mismatches })

/-- Number of classes of the pattern = length of the compiled sequence. -/
def patLen (p : CompiledPattern) : Nat := p.classes.length

/-- Whether a character class accepts a character. -/
def classMatches (cls : List Char) (c : Char) : Bool := decide (c ∈ cls)

/-- Substitution cost of matching the pattern against the window of the
target that starts at position `i`: the number of positions whose target
character is not accepted by the corresponding class. -/
def windowCost (p : CompiledPattern) (t : List Char) (i : Nat) : Nat :=
  (p.classes.zip ((t.drop i).take (patLen p))).countP
    (fun pr => ! classMatches pr.1 pr.2)

/-- Whether position `i` is a fuzzy match within the budget. -/
def okAt (p : CompiledPattern) (t : List Char) (i : Nat) : Bool :=
  decide ((windowCost p t i : Int) ≤ p.mismatches)

/-- All positions of the target where the pattern matches within the
budget, in increasing order.  A substitution-only fuzzy match consumes
exactly `patLen p` characters, so only positions with
`i + patLen p ≤ t.length` are candidates. -/
def matchPositions (p : CompiledPattern) (t : List Char) : List Nat :=
  (List.range (t.length + 1 - patLen p)).filter (okAt p t)

/-- Keep the candidate with strictly fewer mismatches, preferring the
earlier one on ties (the BESTMATCH `(?b)` selection). -/
def pickBetter (p : CompiledPattern) (t : List Char)
    (acc : Option Nat) (i : Nat) : Option Nat :=
  match acc with
  | none => some i
  | some j => if windowCost p t i < windowCost p t j then some i else some j

/-- Start position of the best match of the pattern in the target, if any:
fewest substitutions, ties broken by leftmost. -/
def bestPos (p : CompiledPattern) (t : List Char) : Option Nat :=
  (matchPositions p t).foldl (pickBetter p t) none

/-- `dna_utility.__find_match` (lines 104-129): `regex.search` under the
`(?b)` flag; returns the span of the best match, `(-1, -1)` if none. -/
def find_match (p : CompiledPattern) (t : List Char) : Int × Int :=
  match bestPos p t with
  | none => (-1, -1)
  | some i => ((i : Int), ((i + patLen p : Nat) : Int))

/-- The counting loop shared by both scanners (lines 195-201): repeatedly
slice the target past the previous match's end and search again, counting
matches, until no match is found.  The loop is given explicit fuel; the
scanners run it with fuel `t.length + 1`, which is enough for every
non-empty pattern. -/
def countLoop (p : CompiledPattern) : Nat → List Char → Nat → Nat
  | 0, _, n => n
  | fuel + 1, t, n =>
    match bestPos p t with
    | none => n
    | some i => countLoop p fuel (t.drop (i + patLen p)) (n + 1)

/-- `dna_utility.find_first_match` (lines 170-202): the span of the first
(best) match of the whole target, plus the number of non-overlapping
matches counted by a fresh scan from the start of the target. -/
def find_first_match (p : CompiledPattern) (t : List Char) : Int × Int × Nat :=
  ((find_match p t).1, (find_match p t).2, countLoop p (t.length + 1) t 0)

/-- The scanning loop of `find_last_match` (lines 156-164): accumulate the
span of each successive match in original-target coordinates
(`last_start = last_end + cur_start`, `last_end = last_end + cur_end`). -/
def lastLoop (p : CompiledPattern) : Nat → List Char → Nat → Nat → Nat → Nat × Nat × Nat
  | 0, _, ls, le, n => (ls, le, n)
  | fuel + 1, t, ls, le, n =>
    match bestPos p t with
    | none => (ls, le, n)
    | some i =>
      lastLoop p fuel (t.drop (i + patLen p)) (le + i) (le + (i + patLen p)) (n + 1)

/-- `dna_utility.find_last_match` (lines 131-168): run the scanning loop
and replace a still-zero span by the sentinel `(-1, -1)`. -/
def find_last_match (p : CompiledPattern) (t : List Char) : Int × Int × Nat :=
  match lastLoop p (t.length + 1) t 0 0 0 with
  | (ls, le, n) =>
    if ls = 0 ∧ le = 0 then (-1, -1, n) else ((ls : Int), (le : Int), n)

/-- `textdistance.hamming.distance`: positions of the zipped common prefix
that differ, plus the length difference (the library default); the source
only ever calls it on equal-length sequences. -/
def hammingDist (a b : List Char) : Nat :=
  (a.zip b).countP (fun pr => decide (pr.1 ≠ pr.2)) +
    (max a.length b.length - min a.length b.length)

/-- `dna_utility.find_hamming_distance` (lines 204-234). -/
def find_hamming_distance (target_seq source_seq : List Char)
    (look_at_end : Bool) : Nat :=
  if source_seq.length < target_seq.length then target_seq.length
  else if look_at_end then
    hammingDist target_seq (source_seq.drop (source_seq.length - target_seq.length))
  else
    hammingDist target_seq (source_seq.take target_seq.length)

/-! Specification-side definitions, written from the spec's wording, used
to state the claims against the embedded code. -/

/-- The non-overlapping scan described by the spec (section 4.3): starting
at offset `off`, repeatedly take the best match of the unconsumed suffix,
record its span in original-target coordinates, and continue just past its
end.  Fuel-indexed; `t.length + 1` fuel is exact for non-empty patterns. -/
def scanSpansFuel (p : CompiledPattern) : Nat → Nat → List Char → List (Nat × Nat)
  | 0, _, _ => []
  | fuel + 1, off, t =>
    match bestPos p t with
    | none => []
    | some i =>
      (off + i, off + (i + patLen p)) ::
        scanSpansFuel p fuel (off + (i + patLen p)) (t.drop (i + patLen p))

/-- The list of spans of the non-overlapping matches of `p` in `t`, in
scan order. -/
def scanSpans (p : CompiledPattern) (t : List Char) : List (Nat × Nat) :=
  scanSpansFuel p (t.length + 1) 0 t

/-- Whether the exact string `S` occurs in `T` at position `i`. -/
def isOccAt (S T : List Char) (i : Nat) : Bool :=
  decide ((T.drop i).take S.length = S)

/-- All positions at which `S` occurs exactly in `T`, in increasing order. -/
def occList (S T : List Char) : List Nat :=
  (List.range (T.length + 1 - S.length)).filter (isOccAt S T)

/-- The pattern that `conv_ambig_regex` compiles from an unambiguous
uppercase sequence at budget 0: one singleton class per character. -/
def exactPattern (S : List Char) : CompiledPattern :=
  { classes := S.map (fun c => [c]), mismatches := 0 }

/-- Number of positions `i` with `q[i] ≠ w[i]`, as worded by the spec for
the hamming comparator (both strings are assumed equal length there). -/
def diffCount (q w : List Char) : Nat :=
  (List.range q.length).countP (fun i => decide (q.getD i ' ' ≠ w.getD i ' '))

/-- Modelled from the spec: the set of concrete bases each alphabet symbol
represents — every unambiguous base maps to itself, the gap fillers N and I
to any base, and every IUPAC ambiguity code to its disjunction of bases
(R = A/G, Y = C/T, S = G/C, W = A/T, K = G/T, M = A/C, B = C/G/T,
D = A/G/T, H = A/C/T, V = A/C/G), lowercase symbols representing the
matching lowercase bases. -/
def iupacBases : Char → Option (List Char)
  | 'A' => some ['A']
  | 'a' => some ['a']
  | 'C' => some ['C']
  | 'c' => some ['c']
  | 'G' => some ['G']
  | 'g' => some ['g']
  | 'T' => some ['T']
  | 't' => some ['t']
  | 'U' => some ['U']
  | 'u' => some ['u']
  | 'R' => some ['A', 'G']
  | 'r' => some ['a', 'g']
  | 'Y' => some ['C', 'T']
  | 'y' => some ['c', 't']
  | 'S' => some ['G', 'C']
  | 's' => some ['g', 'c']
  | 'W' => some ['A', 'T']
  | 'w' => some ['a', 't']
  | 'K' => some ['G', 'T']
  | 'k' => some ['g', 't']
  | 'M' => some ['A', 'C']
  | 'm' => some ['a', 'c']
  | 'B' => some ['C', 'G', 'T']
  | 'b' => some ['c', 'g', 't']
  | 'D' => some ['A', 'G', 'T']
  | 'd' => some ['a', 'g', 't']
  | 'V' => some ['A', 'C', 'G']
  | 'v' => some ['a', 'c', 'g']
  | 'H' => some ['A', 'C', 'T']
  | 'h' => some ['a', 'c', 't']
  | 'N' => some ['A', 'C', 'G', 'T']
  | 'n' => some ['a', 'c', 'g', 't']
  | 'I' => some ['A', 'C', 'G', 'T']
  | 'i' => some ['a', 'c', 'g', 't']
  | _ => none

/-! Helper lemmas about the best-match search and the scanning loops. -/

theorem foldl_pickBetter_mem (p : CompiledPattern) (t : List Char) :
    ∀ (l : List Nat) (acc : Option Nat) (i : Nat),
      l.foldl (pickBetter p t) acc = some i → acc = some i ∨ i ∈ l := by
  intro l
  induction l with
  | nil => intro acc i h; exact Or.inl h
  | cons x xs ih =>
    intro acc i h
    rcases ih (pickBetter p t acc x) i h with h' | h'
    · cases acc with
      | none =>
        simp [pickBetter] at h'
        exact Or.inr (by simp [h'])
      | some j =>
        by_cases hc : windowCost p t x < windowCost p t j
        · simp [pickBetter, hc] at h'
          exact Or.inr (by simp [h'])
        · simp [pickBetter, hc] at h'
          exact Or.inl (by simp [h'])
    · exact Or.inr (List.mem_cons_of_mem _ h')

theorem mem_matchPositions {p : CompiledPattern} {t : List Char} {i : Nat} :
    i ∈ matchPositions p t ↔ i < t.length + 1 - patLen p ∧ okAt p t i = true := by
  simp [matchPositions, List.mem_filter, List.mem_range]

theorem bestPos_mem {p : CompiledPattern} {t : List Char} {i : Nat}
    (h : bestPos p t = some i) : i ∈ matchPositions p t := by
  rcases foldl_pickBetter_mem p t (matchPositions p t) none i h with h' | h'
  · exact Option.noConfusion h'
  · exact h'

theorem bestPos_bound {p : CompiledPattern} {t : List Char} {i : Nat}
    (h : bestPos p t = some i) : i + patLen p ≤ t.length := by
  have h' := (mem_matchPositions.mp (bestPos_mem h)).1
  omega

theorem bestPos_nil {p : CompiledPattern} (hk : 0 < patLen p) :
    bestPos p ([] : List Char) = none := by
  have h0 : 1 - patLen p = 0 := by omega
  simp [bestPos, matchPositions, h0]

theorem countLoop_eq_spans (p : CompiledPattern) :
    ∀ (fuel : Nat) (t : List Char) (n off : Nat),
      countLoop p fuel t n = n + (scanSpansFuel p fuel off t).length := by
  intro fuel
  induction fuel with
  | zero => intro t n off; simp [countLoop, scanSpansFuel]
  | succ f ih =>
    intro t n off
    cases hbp : bestPos p t with
    | none => simp [countLoop, scanSpansFuel, hbp]
    | some i =>
      simp only [countLoop, scanSpansFuel, hbp]
      rw [ih (t.drop (i + patLen p)) (n + 1) (off + (i + patLen p))]
      simp only [List.length_cons]
      omega

theorem lastLoop_eq_spans (p : CompiledPattern) :
    ∀ (fuel : Nat) (t : List Char) (ls le n : Nat),
      lastLoop p fuel t ls le n =
        (((scanSpansFuel p fuel le t).getLastD (ls, le)).1,
         ((scanSpansFuel p fuel le t).getLastD (ls, le)).2,
         n + (scanSpansFuel p fuel le t).length) := by
  intro fuel
  induction fuel with
  | zero => intro t ls le n; simp [lastLoop, scanSpansFuel]
  | succ f ih =>
    intro t ls le n
    cases hbp : bestPos p t with
    | none => simp [lastLoop, scanSpansFuel, hbp]
    | some i =>
      simp only [lastLoop, scanSpansFuel, hbp]
      rw [ih (t.drop (i + patLen p)) (le + i) (le + (i + patLen p)) (n + 1)]
      simp only [List.getLastD_cons, List.length_cons, Prod.mk.injEq, true_and]
      omega

theorem scanSpansFuel_snd (p : CompiledPattern) :
    ∀ (fuel off : Nat) (t : List Char) (sp : Nat × Nat),
      sp ∈ scanSpansFuel p fuel off t → sp.2 = sp.1 + patLen p := by
  intro fuel
  induction fuel with
  | zero => intro off t sp h; simp [scanSpansFuel] at h
  | succ f ih =>
    intro off t sp h
    cases hbp : bestPos p t with
    | none => simp [scanSpansFuel, hbp] at h
    | some i =>
      simp only [scanSpansFuel, hbp, List.mem_cons] at h
      rcases h with h | h
      · subst h; simp; omega
      · exact ih (off + (i + patLen p)) (t.drop (i + patLen p)) sp h

theorem scanSpansFuel_stable (p : CompiledPattern) (hk : 0 < patLen p) :
    ∀ (N fuel fuel' off : Nat) (t : List Char), t.length ≤ N →
      t.length < fuel → t.length < fuel' →
      scanSpansFuel p fuel off t = scanSpansFuel p fuel' off t := by
  intro N
  induction N with
  | zero =>
    intro fuel fuel' off t hN hf hf'
    obtain ⟨f, rfl⟩ : ∃ f, fuel = f + 1 := ⟨fuel - 1, by omega⟩
    obtain ⟨f', rfl⟩ : ∃ f', fuel' = f' + 1 := ⟨fuel' - 1, by omega⟩
    have ht : t = [] := List.length_eq_zero.mp (by omega)
    subst ht
    simp [scanSpansFuel, bestPos_nil hk]
  | succ N ih =>
    intro fuel fuel' off t hN hf hf'
    obtain ⟨f, rfl⟩ : ∃ f, fuel = f + 1 := ⟨fuel - 1, by omega⟩
    obtain ⟨f', rfl⟩ : ∃ f', fuel' = f' + 1 := ⟨fuel' - 1, by omega⟩
    cases hbp : bestPos p t with
    | none => simp [scanSpansFuel, hbp]
    | some i =>
      have hb := bestPos_bound hbp
      have hlen : (t.drop (i + patLen p)).length = t.length - (i + patLen p) :=
        List.length_drop _ _
      simp only [scanSpansFuel, hbp]
      rw [ih f f' (off + (i + patLen p)) (t.drop (i + patLen p))
        (by rw [hlen]; omega) (by rw [hlen]; omega) (by rw [hlen]; omega)]

theorem windowCost_eq_zero_of_ok {p : CompiledPattern} (hm : p.mismatches = 0)
    {t : List Char} {i : Nat} (h : okAt p t i = true) : windowCost p t i = 0 := by
  simp only [okAt, hm, decide_eq_true_eq] at h
  omega

theorem foldl_pickBetter_const {p : CompiledPattern} {t : List Char} :
    ∀ (l : List Nat) (j : Nat), (∀ x ∈ l, windowCost p t x = 0) →
      windowCost p t j = 0 → l.foldl (pickBetter p t) (some j) = some j := by
  intro l
  induction l with
  | nil => intro j _ _; rfl
  | cons x xs ih =>
    intro j hall hj
    have hx : windowCost p t x = 0 := hall x (List.mem_cons_self x xs)
    have hpick : pickBetter p t (some j) x = some j := by
      simp [pickBetter, hx, hj]
    rw [List.foldl_cons, hpick]
    exact ih j (fun y hy => hall y (List.mem_cons_of_mem x hy)) hj

theorem bestPos_zero_budget {p : CompiledPattern} (hm : p.mismatches = 0) (t : List Char) :
    bestPos p t = (matchPositions p t).head? := by
  have hall : ∀ x ∈ matchPositions p t, windowCost p t x = 0 := fun x hx =>
    windowCost_eq_zero_of_ok hm (mem_matchPositions.mp hx).2
  unfold bestPos
  cases hmp : matchPositions p t with
  | nil => rfl
  | cons x xs =>
    have hx : windowCost p t x = 0 := hall x (by rw [hmp]; exact List.mem_cons_self x xs)
    have hxs : ∀ y ∈ xs, windowCost p t y = 0 := fun y hy =>
      hall y (by rw [hmp]; exact List.mem_cons_of_mem x hy)
    simp only [List.foldl_cons]
    have hpick : pickBetter p t none x = some x := rfl
    rw [hpick, foldl_pickBetter_const xs x hxs hx]
    rfl

/-! Lemmas about patterns compiled from unambiguous uppercase sequences. -/

theorem patLen_exact (S : List Char) : patLen (exactPattern S) = S.length := by
  simp [patLen, exactPattern]

theorem exact_zip_mem : ∀ (S w : List Char), w.length = S.length →
    ((∀ pr ∈ (S.map (fun c => [c])).zip w, pr.2 ∈ pr.1) ↔ w = S) := by
  intro S
  induction S with
  | nil =>
    intro w hw
    have hwe : w = [] := List.length_eq_zero.mp hw
    subst hwe
    simp
  | cons c S' ih =>
    intro w hw
    cases w with
    | nil => simp at hw
    | cons x w' =>
      have hlen : w'.length = S'.length := by simpa using hw
      simp only [List.map_cons, List.zip_cons_cons, List.forall_mem_cons,
        List.mem_singleton, List.cons.injEq]
      exact and_congr Iff.rfl (ih w' hlen)

theorem exact_windowCost {S T : List Char} {i : Nat} (hle : i + S.length ≤ T.length) :
    (windowCost (exactPattern S) T i = 0 ↔ isOccAt S T i = true) := by
  have hw : ((T.drop i).take S.length).length = S.length := by
    simp only [List.length_take, List.length_drop]
    omega
  have h1 : windowCost (exactPattern S) T i =
      ((S.map (fun c => [c])).zip ((T.drop i).take S.length)).countP
        (fun pr => ! classMatches pr.1 pr.2) := by
    simp [windowCost, exactPattern, patLen, List.length_map]
  rw [h1, List.countP_eq_zero]
  constructor
  · intro hall
    have hmem : ∀ pr ∈ (S.map (fun c => [c])).zip ((T.drop i).take S.length),
        pr.2 ∈ pr.1 := by
      intro pr hpr
      have hp := hall pr hpr
      simpa [classMatches] using hp
    have heq := (exact_zip_mem S _ hw).mp hmem
    simp [isOccAt, heq]
  · intro hocc
    have heq : (T.drop i).take S.length = S := by simpa [isOccAt] using hocc
    have hmem := (exact_zip_mem S _ hw).mpr heq
    intro pr hpr
    simpa [classMatches] using hmem pr hpr

theorem exact_okAt {S T : List Char} {i : Nat} (hle : i + S.length ≤ T.length) :
    okAt (exactPattern S) T i = isOccAt S T i := by
  have h := exact_windowCost (S := S) (T := T) (i := i) hle
  have hm : (exactPattern S).mismatches = 0 := rfl
  unfold okAt
  rw [hm]
  rcases Nat.eq_zero_or_pos (windowCost (exactPattern S) T i) with hc | hc
  · rw [hc, h.mp hc]
    simp
  · have hne : windowCost (exactPattern S) T i ≠ 0 := by omega
    have hocc' : isOccAt S T i = false := by
      cases hb : isOccAt S T i
      · rfl
      · exact absurd (h.mpr hb) hne
    rw [hocc']
    simp only [decide_eq_false_iff_not]
    omega

theorem exact_matchPositions (S T : List Char) :
    matchPositions (exactPattern S) T = occList S T := by
  unfold matchPositions occList
  rw [patLen_exact]
  apply List.filter_congr
  intro i hi
  have hib : i < T.length + 1 - S.length := List.mem_range.mp hi
  exact exact_okAt (by omega)

theorem exact_bestPos (S T : List Char) :
    bestPos (exactPattern S) T = (occList S T).head? := by
  rw [bestPos_zero_budget rfl, exact_matchPositions]

/-! Lemmas about exact occurrences. -/

theorem mem_occList {S T : List Char} {m : Nat} :
    m ∈ occList S T ↔ m < T.length + 1 - S.length ∧ isOccAt S T m = true := by
  simp [occList, List.mem_filter, List.mem_range]

theorem isOccAt_drop (S T : List Char) (d m : Nat) :
    isOccAt S (T.drop d) m = isOccAt S T (d + m) := by
  unfold isOccAt
  rw [List.drop_drop]

theorem isOccAt_le {S T : List Char} {m : Nat} (hS : S ≠ [])
    (h : isOccAt S T m = true) : m + S.length ≤ T.length := by
  simp only [isOccAt, decide_eq_true_eq] at h
  have hlen := congrArg List.length h
  simp only [List.length_take, List.length_drop] at hlen
  have hS' : 0 < S.length := List.length_pos.mpr hS
  omega

theorem head_filter_range (pr : Nat → Bool) :
    ∀ (n x : Nat), x < n → pr x = true → (∀ y, y < x → pr y = false) →
      ((List.range n).filter pr).head? = some x := by
  intro n
  induction n with
  | zero => intro x hx _ _; exact absurd hx (by omega)
  | succ n ih =>
    intro x hx hpx hlt
    rw [List.range_succ, List.filter_append]
    by_cases hxn : x < n
    · have h1 := ih x hxn hpx hlt
      cases hfl : (List.range n).filter pr with
      | nil => rw [hfl] at h1; exact Option.noConfusion h1
      | cons a l =>
        rw [hfl] at h1
        simp only [List.head?_cons, Option.some.injEq] at h1
        simp [h1]
    · have hxeq : x = n := by omega
      subst hxeq
      have hnil : (List.range x).filter pr = [] := by
        rw [List.filter_eq_nil_iff]
        intro a ha
        have hax : a < x := List.mem_range.mp ha
        simp [hlt a hax]
      rw [hnil]
      simp [List.filter, hpx]

/-! Lemmas about the compiler on unambiguous uppercase input. -/

theorem convChars_map_singleton :
    ∀ (S : List Char), (∀ c ∈ S, c ∈ (['A', 'C', 'G', 'T'] : List Char)) →
      convChars S = Except.ok (S.map (fun c => [c])) := by
  intro S
  induction S with
  | nil => intro _; rfl
  | cons c S' ih =>
    intro h
    have hc : c ∈ (['A', 'C', 'G', 'T'] : List Char) := h c (List.mem_cons_self c S')
    have hdict : AMB_REGEX_DICT c = some [c] := by
      simp only [List.mem_cons, List.mem_singleton] at hc
      rcases hc with rfl | rfl | rfl | rfl | h0 <;> first | rfl | exact absurd h0 (by simp)
    simp [convChars, hdict, ih (fun d hd => h d (List.mem_cons_of_mem c hd)), Except.map]

theorem map_toUpper_fixed :
    ∀ (S : List Char), (∀ c ∈ S, c ∈ (['A', 'C', 'G', 'T'] : List Char)) →
      S.map Char.toUpper = S := by
  intro S
  induction S with
  | nil => intro _; rfl
  | cons c S' ih =>
    intro h
    have hc : c ∈ (['A', 'C', 'G', 'T'] : List Char) := h c (List.mem_cons_self c S')
    have hup : Char.toUpper c = c := by
      simp only [List.mem_cons, List.mem_singleton] at hc
      rcases hc with rfl | rfl | rfl | rfl | h0
      · decide
      · decide
      · decide
      · decide
      · exact absurd h0 (by simp)
    simp [hup, ih (fun d hd => h d (List.mem_cons_of_mem c hd))]

theorem conv_exact (S : List Char)
    (h : ∀ c ∈ S, c ∈ (['A', 'C', 'G', 'T'] : List Char)) :
    conv_ambig_regex S 0 false = Except.ok (exactPattern S) := by
  unfold conv_ambig_regex
  have hcase : (if false then S else S.map Char.toUpper) = S := by
    rw [if_neg (by simp), map_toUpper_fixed S h]
  rw [hcase, convChars_map_singleton S h]
  rfl

theorem convChars_error :
    ∀ (l : List Char), (∃ c ∈ l, AMB_REGEX_DICT c = none) →
      ∃ d, convChars l = Except.error d ∧ AMB_REGEX_DICT d = none ∧ d ∈ l := by
  intro l
  induction l with
  | nil =>
    intro h
    rcases h with ⟨c, hc, _⟩
    exact absurd hc (List.not_mem_nil c)
  | cons c rest ih =>
    intro h
    cases hdict : AMB_REGEX_DICT c with
    | none =>
      refine ⟨c, ?_, hdict, List.mem_cons_self c rest⟩
      simp [convChars, hdict]
    | some cls =>
      have hex : ∃ d ∈ rest, AMB_REGEX_DICT d = none := by
        rcases h with ⟨d, hd, hnone⟩
        rcases List.mem_cons.mp hd with rfl | hd'
        · rw [hdict] at hnone; exact Option.noConfusion hnone
        · exact ⟨d, hd', hnone⟩
      rcases ih hex with ⟨d, herr, hnone, hmem⟩
      refine ⟨d, ?_, hnone, List.mem_cons_of_mem c hmem⟩
      simp [convChars, hdict, herr, Except.map]

/-! Lemmas about the hamming comparator. -/

theorem diffCount_cons (a b : Char) (q w : List Char) :
    diffCount (a :: q) (b :: w) = diffCount q w + if a ≠ b then 1 else 0 := by
  unfold diffCount
  rw [List.length_cons, List.range_succ_eq_map, List.countP_cons, List.countP_map]
  simp only [Function.comp_def, List.getD_cons_succ, List.getD_cons_zero]
  by_cases hab : a = b <;> simp [hab]

theorem diffCount_eq_zip :
    ∀ (q w : List Char), q.length = w.length →
      diffCount q w = (q.zip w).countP (fun pr => decide (pr.1 ≠ pr.2)) := by
  intro q
  induction q with
  | nil => intro w h; simp [diffCount]
  | cons a q' ih =>
    intro w h
    cases w with
    | nil => simp at h
    | cons b w' =>
      have h' : q'.length = w'.length := by simpa using h
      rw [diffCount_cons, ih w' h', List.zip_cons_cons, List.countP_cons]
      by_cases hab : a = b <;> simp [hab]

theorem hammingDist_eq_diffCount {q w : List Char} (h : q.length = w.length) :
    hammingDist q w = diffCount q w := by
  unfold hammingDist
  rw [diffCount_eq_zip q w h, h]
  simp

/-! The claims. -/

/-- Claim C1: for every compiled pattern with a non-empty class list,
`find_first_match` returns the span of the first match found in the target
(the best-policy match of the whole target) together with the number of
non-overlapping matches of the full left-to-right scan, and the sentinel
span (-1, -1) with count 0 when there is no match anywhere. -/
theorem claim_C1 (p : CompiledPattern) (t : List Char) (hk : 0 < patLen p) :
    (∀ i, bestPos p t = some i →
      find_first_match p t =
        ((i : Int), ((i + patLen p : Nat) : Int), (scanSpans p t).length) ∧
      scanSpans p t ≠ []) ∧
    (bestPos p t = none → find_first_match p t = (-1, -1, 0)) := by
  have hc : countLoop p (t.length + 1) t 0 = (scanSpans p t).length := by
    rw [countLoop_eq_spans p (t.length + 1) t 0 0]
    simp [scanSpans]
  constructor
  · intro i hbp
    constructor
    · simp [find_first_match, find_match, hbp, hc]
    · unfold scanSpans
      simp only [scanSpansFuel, hbp]
      simp
  · intro hbp
    have hs : scanSpans p t = [] := by
      unfold scanSpans
      simp only [scanSpansFuel, hbp]
    rw [hs] at hc
    simp [find_first_match, find_match, hbp, hc]

theorem claim_C1_witness :
    find_first_match ⟨[['A']], 0⟩ ['A', 'A'] =
      ((0 : Int), (1 : Int), (scanSpans ⟨[['A']], 0⟩ ['A', 'A']).length) ∧
    scanSpans ⟨[['A']], 0⟩ ['A', 'A'] ≠ [] :=
  (claim_C1 ⟨[['A']], 0⟩ ['A', 'A'] (by decide)).1 0 (by decide)

/-- Claim C3: for every query, reference and anchor flag,
`find_hamming_distance` returns the query length when the query is longer
than the reference, and otherwise the number of positions at which the
query differs from the window of the reference of the query's length — the
trailing window when the flag is set, the leading window otherwise. -/
theorem claim_C3 (q r : List Char) (b : Bool) :
    (r.length < q.length → find_hamming_distance q r b = q.length) ∧
    (q.length ≤ r.length →
      find_hamming_distance q r b =
        diffCount q (if b then r.drop (r.length - q.length) else r.take q.length)) := by
  constructor
  · intro h
    unfold find_hamming_distance
    rw [if_pos h]
  · intro h
    have hd : (r.drop (r.length - q.length)).length = q.length := by
      rw [List.length_drop]; omega
    have ht : (r.take q.length).length = q.length := by
      rw [List.length_take]; omega
    cases b
    · have hL : find_hamming_distance q r false = hammingDist q (r.take q.length) := by
        unfold find_hamming_distance
        rw [if_neg (by omega)]
        rfl
      rw [hL]
      exact hammingDist_eq_diffCount ht.symm
    · have hL : find_hamming_distance q r true = hammingDist q (r.drop (r.length - q.length)) := by
        unfold find_hamming_distance
        rw [if_neg (by omega)]
        rfl
      rw [hL]
      exact hammingDist_eq_diffCount hd.symm

theorem claim_C3_witness :
    find_hamming_distance ['A', 'C', 'G', 'T'] ['T', 'T', 'T', 'T', 'A', 'C', 'G', 'T'] true =
      diffCount ['A', 'C', 'G', 'T'] (['T', 'T', 'T', 'T', 'A', 'C', 'G', 'T'].drop 4) :=
  (claim_C3 ['A', 'C', 'G', 'T'] ['T', 'T', 'T', 'T', 'A', 'C', 'G', 'T'] true).2 (by decide)

/-- Claim C10: on equal-length inputs the anchor flag is irrelevant —
`find_hamming_distance` returns the plain hamming distance of the two whole
strings either way; the window choice only matters for a strictly longer
reference. -/
theorem claim_C10 (q r : List Char) (h : q.length = r.length) :
    find_hamming_distance q r true = find_hamming_distance q r false ∧
    find_hamming_distance q r true = hammingDist q r := by
  have h1 : find_hamming_distance q r true = hammingDist q r := by
    unfold find_hamming_distance
    rw [if_neg (by omega)]
    show hammingDist q (r.drop (r.length - q.length)) = hammingDist q r
    have h0 : r.length - q.length = 0 := by omega
    rw [h0, List.drop_zero]
  have h2 : find_hamming_distance q r false = hammingDist q r := by
    unfold find_hamming_distance
    rw [if_neg (by omega)]
    show hammingDist q (r.take q.length) = hammingDist q r
    rw [h, List.take_length]
  exact ⟨h1.trans h2.symm, h1⟩

theorem claim_C10_witness :
    find_hamming_distance ['A', 'C'] ['A', 'G'] true =
      find_hamming_distance ['A', 'C'] ['A', 'G'] false ∧
    find_hamming_distance ['A', 'C'] ['A', 'G'] true = hammingDist ['A', 'C'] ['A', 'G'] :=
  claim_C10 ['A', 'C'] ['A', 'G'] rfl

/-- Claim C5: compiling any sequence that, after the optional uppercasing
step, contains a character without an entry in the alphabet table always
fails with an error naming an offending character; nothing is silently
skipped or substituted. -/
theorem claim_C5 (seq : List Char) (m : Int) (pc : Bool)
    (h : ∃ c ∈ (if pc then seq else seq.map Char.toUpper), AMB_REGEX_DICT c = none) :
    ∃ d, conv_ambig_regex seq m pc = Except.error d ∧ AMB_REGEX_DICT d = none ∧
      d ∈ (if pc then seq else seq.map Char.toUpper) := by
  rcases convChars_error _ h with ⟨d, herr, hnone, hmem⟩
  refine ⟨d, ?_, hnone, hmem⟩
  unfold conv_ambig_regex
  rw [herr]
  rfl

theorem claim_C5_witness :
    ∃ d, conv_ambig_regex ['X'] 0 false = Except.error d ∧ AMB_REGEX_DICT d = none ∧
      d ∈ (['X'].map Char.toUpper) :=
  claim_C5 ['X'] 0 false ⟨'X', by decide, by decide⟩

/-- Claim C4 is refuted by the source table: the entry for 'V' is the class
[ACT] although V represents the bases A, C, G; the entry for 'H' is [ACG]
although H represents A, C, T; and the lowercase 'm' entry is the uppercase
class [AC] instead of the lowercase bases it represents.  Consequently the
pattern compiled from "V" at 0 mismatches fails to match the base G that V
represents and matches the base T that it does not, and the pattern
compiled from "m" (case preserved) fails to match the lowercase base a. -/
theorem claim_C4_table_divergence :
    (AMB_REGEX_DICT 'V' = some ['A', 'C', 'T'] ∧ iupacBases 'V' = some ['A', 'C', 'G']) ∧
    (AMB_REGEX_DICT 'H' = some ['A', 'C', 'G'] ∧ iupacBases 'H' = some ['A', 'C', 'T']) ∧
    (AMB_REGEX_DICT 'm' = some ['A', 'C'] ∧ iupacBases 'm' = some ['a', 'c']) ∧
    (∃ p, conv_ambig_regex ['V'] 0 true = Except.ok p ∧
      find_match p ['G'] = (-1, -1) ∧ find_match p ['T'] = (0, 1)) ∧
    (∃ p, conv_ambig_regex ['m'] 0 true = Except.ok p ∧
      find_match p ['a'] = (-1, -1) ∧ find_match p ['A'] = (0, 1)) :=
  ⟨⟨rfl, rfl⟩, ⟨rfl, rfl⟩, ⟨rfl, rfl⟩,
   ⟨⟨[['A', 'C', 'T']], 0⟩, rfl, rfl, rfl⟩,
   ⟨⟨[['A', 'C']], 0⟩, rfl, rfl, rfl⟩⟩

/-- Claim C6 is refuted by the source: `conv_ambig_regex` performs no
validation of the mismatch budget — a negative budget is accepted and
recorded in the compiled pattern (the source interpolates
`str(mismatches)` straight into the pattern string handed to the regex
engine, with no boundary check). -/
theorem claim_C6_no_rejection :
    conv_ambig_regex ['A'] (-1) false =
      Except.ok { classes := [['A']], mismatches := -1 } := rfl

/-- Claim C9: for every pattern with a non-empty class list, every match
found by the search has its end strictly greater than its start and lies
inside the target, so both scanning loops advance strictly at every step;
their results are insensitive to the fuel bound as soon as it exceeds the
target length, i.e. the scans terminate. -/
theorem claim_C9 (p : CompiledPattern) (t : List Char) (hk : 0 < patLen p) :
    (∀ i, bestPos p t = some i → i < i + patLen p ∧ i + patLen p ≤ t.length) ∧
    (∀ fuel fuel' ls le n, t.length < fuel → t.length < fuel' →
      lastLoop p fuel t ls le n = lastLoop p fuel' t ls le n) ∧
    (∀ fuel fuel' n, t.length < fuel → t.length < fuel' →
      countLoop p fuel t n = countLoop p fuel' t n) := by
  refine ⟨?_, ?_, ?_⟩
  · intro i hbp
    exact ⟨by omega, bestPos_bound hbp⟩
  · intro fuel fuel' ls le n hf hf'
    rw [lastLoop_eq_spans p fuel t ls le n, lastLoop_eq_spans p fuel' t ls le n,
      scanSpansFuel_stable p hk t.length fuel fuel' le t (Nat.le_refl _) hf hf']
  · intro fuel fuel' n hf hf'
    rw [countLoop_eq_spans p fuel t n 0, countLoop_eq_spans p fuel' t n 0,
      scanSpansFuel_stable p hk t.length fuel fuel' 0 t (Nat.le_refl _) hf hf']

theorem claim_C9_witness :
    lastLoop ⟨[['A']], 0⟩ 2 ['A'] 0 0 0 = lastLoop ⟨[['A']], 0⟩ 3 ['A'] 0 0 0 ∧
    countLoop ⟨[['A']], 0⟩ 2 ['A'] 0 = countLoop ⟨[['A']], 0⟩ 3 ['A'] 0 ∧
    (0 < 0 + patLen (⟨[['A']], 0⟩ : CompiledPattern) ∧
      0 + patLen (⟨[['A']], 0⟩ : CompiledPattern) ≤ (['A'] : List Char).length) :=
  ⟨(claim_C9 ⟨[['A']], 0⟩ ['A'] (by decide)).2.1 2 3 0 0 0 (by decide) (by decide),
   (claim_C9 ⟨[['A']], 0⟩ ['A'] (by decide)).2.2 2 3 0 (by decide) (by decide),
   (claim_C9 ⟨[['A']], 0⟩ ['A'] (by decide)).1 0 (by decide)⟩

/-- Claim C8: on a target where the scan finds exactly one match (a best
match exists and no further match follows it), `find_first_match` and
`find_last_match` return the identical span with count exactly 1. -/
theorem claim_C8 (p : CompiledPattern) (t : List Char) (i : Nat)
    (hk : 0 < patLen p) (h1 : bestPos p t = some i)
    (h2 : bestPos p (t.drop (i + patLen p)) = none) :
    find_first_match p t = ((i : Int), ((i + patLen p : Nat) : Int), 1) ∧
    find_last_match p t = ((i : Int), ((i + patLen p : Nat) : Int), 1) := by
  have hb := bestPos_bound h1
  have hspans : scanSpansFuel p (t.length + 1) 0 t = [(i, i + patLen p)] := by
    simp only [scanSpansFuel, h1, Nat.zero_add]
    obtain ⟨m, hm⟩ : ∃ m, t.length = m + 1 := ⟨t.length - 1, by omega⟩
    rw [hm]
    simp only [scanSpansFuel, h2]
  constructor
  · have hc : countLoop p (t.length + 1) t 0 = 1 := by
      rw [countLoop_eq_spans p (t.length + 1) t 0 0, hspans]
      rfl
    simp [find_first_match, find_match, h1, hc]
  · have hlast : lastLoop p (t.length + 1) t 0 0 0 = (i, i + patLen p, 1) := by
      rw [lastLoop_eq_spans p (t.length + 1) t 0 0 0, hspans]
      simp [List.getLastD]
    have hne : ¬(i = 0 ∧ i + patLen p = 0) := by omega
    simp only [find_last_match, hlast]
    rw [if_neg hne]

theorem claim_C8_witness :
    find_first_match ⟨[['A']], 0⟩ ['G', 'A'] = ((1 : Int), (2 : Int), 1) ∧
    find_last_match ⟨[['A']], 0⟩ ['G', 'A'] = ((1 : Int), (2 : Int), 1) :=
  claim_C8 ⟨[['A']], 0⟩ ['G', 'A'] 1 (by decide) (by decide) (by decide)

/-- Claim C7: for an unambiguous target (concrete bases only) containing a
non-empty exact substring, `find_first_match` with the pattern compiled
from that substring at 0 mismatches returns the span exactly covering the
first occurrence, with count at least 1. -/
theorem claim_C7 (S T : List Char) (i : Nat) (hS : S ≠ [])
    (hT : ∀ c ∈ T, c ∈ (['A', 'C', 'G', 'T'] : List Char))
    (hocc : (occList S T).head? = some i) :
    ∃ p n, conv_ambig_regex S 0 false = Except.ok p ∧
      find_first_match p T = ((i : Int), ((i + S.length : Nat) : Int), n) ∧ 1 ≤ n := by
  have hmem : i ∈ occList S T := by
    cases hol : occList S T with
    | nil => rw [hol] at hocc; exact Option.noConfusion hocc
    | cons a l =>
      rw [hol] at hocc
      have ha : a = i := by simpa using hocc
      subst ha
      exact List.mem_cons_self a l
  rcases mem_occList.mp hmem with ⟨hbound, hIocc⟩
  have heq : (T.drop i).take S.length = S := by simpa [isOccAt] using hIocc
  have hSc : ∀ c ∈ S, c ∈ (['A', 'C', 'G', 'T'] : List Char) := by
    intro c hc
    rw [← heq] at hc
    exact hT c (List.drop_subset _ _ (List.take_subset _ _ hc))
  have hconv := conv_exact S hSc
  have hbp : bestPos (exactPattern S) T = some i := by
    rw [exact_bestPos, hocc]
  refine ⟨exactPattern S, countLoop (exactPattern S) (T.length + 1) T 0, hconv, ?_, ?_⟩
  · simp [find_first_match, find_match, hbp, patLen_exact]
  · rw [countLoop_eq_spans (exactPattern S) (T.length + 1) T 0 0]
    simp only [scanSpansFuel, hbp, List.length_cons]
    omega

theorem claim_C7_witness :
    ∃ p n, conv_ambig_regex ['C'] 0 false = Except.ok p ∧
      find_first_match p ['A', 'C'] = ((1 : Int), (2 : Int), n) ∧ 1 ≤ n :=
  claim_C7 ['C'] ['A', 'C'] 1 (by decide) (by decide) (by decide)

/-- Claim C2: `find_last_match` returns the span of the last non-overlapping
match, offsets accumulated so that they refer to the original target, with
the total count of non-overlapping matches, and the sentinel (-1, -1) with
count 0 when there is no match; in particular, on a target whose exact
occurrences of an unambiguous query are exactly two disjoint positions, it
returns the span of the second occurrence with count 2. -/
theorem claim_C2 :
    (∀ (p : CompiledPattern) (t : List Char), 0 < patLen p →
      (scanSpans p t = [] → find_last_match p t = (-1, -1, 0)) ∧
      (∀ sp, (scanSpans p t).getLast? = some sp →
        find_last_match p t = ((sp.1 : Int), (sp.2 : Int), (scanSpans p t).length))) ∧
    (∀ (S T : List Char) (i j : Nat), S ≠ [] →
      (∀ c ∈ S, c ∈ (['A', 'C', 'G', 'T'] : List Char)) →
      occList S T = [i, j] → i + S.length ≤ j →
      ∃ p, conv_ambig_regex S 0 false = Except.ok p ∧
        find_last_match p T = ((j : Int), ((j + S.length : Nat) : Int), 2)) := by
  constructor
  · intro p t hk
    constructor
    · intro hnil
      unfold scanSpans at hnil
      unfold find_last_match
      rw [lastLoop_eq_spans p (t.length + 1) t 0 0 0, hnil]
      simp
    · intro sp hlastq
      unfold scanSpans at hlastq
      have hgl : (scanSpansFuel p (t.length + 1) 0 t).getLastD (0, 0) = sp := by
        rw [List.getLastD_eq_getLast?, hlastq]
        rfl
      have hmem : sp ∈ scanSpansFuel p (t.length + 1) 0 t :=
        List.mem_of_mem_getLast? hlastq
      have hsnd := scanSpansFuel_snd p (t.length + 1) 0 t sp hmem
      have hne : ¬(sp.1 = 0 ∧ sp.2 = 0) := by omega
      unfold find_last_match scanSpans
      rw [lastLoop_eq_spans p (t.length + 1) t 0 0 0, hgl]
      simp [hne]
  · intro S T i j hS hSc hol hdisj
    have hs1 : 0 < S.length := List.length_pos.mpr hS
    have hconv := conv_exact S hSc
    have hkp : 0 < patLen (exactPattern S) := by rw [patLen_exact]; exact hs1
    have hiMem : i ∈ occList S T := by rw [hol]; exact List.mem_cons_self _ _
    have hjMem : j ∈ occList S T := by rw [hol]; simp
    rcases mem_occList.mp hiMem with ⟨hib, hio⟩
    rcases mem_occList.mp hjMem with ⟨hjb, hjo⟩
    have hile : i + S.length ≤ T.length := isOccAt_le hS hio
    have hjle : j + S.length ≤ T.length := isOccAt_le hS hjo
    have hOcc : ∀ m, isOccAt S T m = true → (m = i ∨ m = j) := by
      intro m hm
      have hmb : m + S.length ≤ T.length := isOccAt_le hS hm
      have hmMem : m ∈ occList S T := mem_occList.mpr ⟨by omega, hm⟩
      rw [hol] at hmMem
      simpa using hmMem
    have hbp1 : bestPos (exactPattern S) T = some i := by
      rw [exact_bestPos, hol]
      rfl
    have hbp2 : bestPos (exactPattern S) (T.drop (i + S.length)) =
        some (j - (i + S.length)) := by
      rw [exact_bestPos]
      unfold occList
      apply head_filter_range
      · rw [List.length_drop]
        omega
      · rw [isOccAt_drop]
        have harg : i + S.length + (j - (i + S.length)) = j := by omega
        rw [harg]
        exact hjo
      · intro y hy
        cases hb : isOccAt S (T.drop (i + S.length)) y
        · rfl
        · rw [isOccAt_drop] at hb
          rcases hOcc (i + S.length + y) hb with h' | h' <;> omega
    have hbp3 : bestPos (exactPattern S) (T.drop (j + S.length)) = none := by
      rw [exact_bestPos]
      have hnone : occList S (T.drop (j + S.length)) = [] := by
        unfold occList
        rw [List.filter_eq_nil_iff]
        intro a ha hcon
        rw [isOccAt_drop] at hcon
        rcases hOcc (j + S.length + a) hcon with h' | h' <;> omega
      rw [hnone]
      rfl
    have step2 : ∀ off, scanSpansFuel (exactPattern S)
        ((T.drop (i + S.length)).length + 1) off (T.drop (i + S.length)) =
        [(off + (j - (i + S.length)), off + ((j - (i + S.length)) + S.length))] := by
      intro off
      simp only [scanSpansFuel, hbp2, patLen_exact]
      have hdd : (T.drop (i + S.length)).drop ((j - (i + S.length)) + S.length) =
          T.drop (j + S.length) := by
        rw [List.drop_drop]
        have harg : i + S.length + ((j - (i + S.length)) + S.length) = j + S.length := by
          omega
        rw [harg]
      rw [hdd]
      have hstab : scanSpansFuel (exactPattern S) (T.drop (i + S.length)).length
          (off + ((j - (i + S.length)) + S.length)) (T.drop (j + S.length)) =
          scanSpansFuel (exactPattern S) ((T.drop (j + S.length)).length + 1)
          (off + ((j - (i + S.length)) + S.length)) (T.drop (j + S.length)) :=
        scanSpansFuel_stable _ hkp (T.drop (j + S.length)).length _ _ _ _
          (Nat.le_refl _)
          (by rw [List.length_drop, List.length_drop]; omega)
          (by omega)
      rw [hstab]
      simp only [scanSpansFuel, hbp3]
    have hspans : scanSpansFuel (exactPattern S) (T.length + 1) 0 T =
        [(i, i + S.length), (j, j + S.length)] := by
      simp only [scanSpansFuel, hbp1, patLen_exact, Nat.zero_add]
      have hstab1 : scanSpansFuel (exactPattern S) T.length (i + S.length)
          (T.drop (i + S.length)) =
          scanSpansFuel (exactPattern S) ((T.drop (i + S.length)).length + 1)
          (i + S.length) (T.drop (i + S.length)) :=
        scanSpansFuel_stable _ hkp (T.drop (i + S.length)).length _ _ _ _
          (Nat.le_refl _)
          (by rw [List.length_drop]; omega)
          (by omega)
      rw [hstab1, step2 (i + S.length)]
      have e2 : i + S.length + (j - (i + S.length)) = j := by omega
      have e3 : i + S.length + ((j - (i + S.length)) + S.length) = j + S.length := by
        omega
      rw [e2, e3]
    have hlast : lastLoop (exactPattern S) (T.length + 1) T 0 0 0 =
        (j, j + S.length, 2) := by
      rw [lastLoop_eq_spans _ (T.length + 1) T 0 0 0, hspans]
      simp [List.getLastD]
    have hne : ¬(j = 0 ∧ j + S.length = 0) := by omega
    refine ⟨exactPattern S, hconv, ?_⟩
    simp only [find_last_match, hlast]
    rw [if_neg hne]

theorem claim_C2_witness :
    find_last_match ⟨[['G']], 0⟩ ['A'] = (-1, -1, 0) ∧
    (∃ p, conv_ambig_regex ['A', 'C'] 0 false = Except.ok p ∧
      find_last_match p ['A', 'C', 'A', 'C'] = ((2 : Int), (4 : Int), 2)) :=
  ⟨(claim_C2.1 ⟨[['G']], 0⟩ ['A'] (by decide)).1 (by decide),
   claim_C2.2 ['A', 'C'] ['A', 'C', 'A', 'C'] 0 2 (by decide) (by decide) (by decide)
     (by decide)⟩

end DnaHelper
